import Mathlib

/-!
Shallow embedding of `src/lib.rs` of the `ringbuffer-spsc` crate: a
fixed-capacity single-producer single-consumer ring buffer.

Modelling conventions:
* `usize` values are `Nat`s together with a word width `w`; machine
  arithmetic is explicit wrapping arithmetic modulo `2 ^ w`
  (`wrapping_add` / `wrapping_sub`); plain `+` / `-` on `usize` is
  modelled with release-mode (wrapping) semantics.
* A `MaybeUninit<T>` slot is an `Option T`; `none` is uninitialized.
* The operations are modelled sequentially (single thread of execution):
  an atomic load returns the current value of the shared field, an atomic
  store replaces it.  The writer-local and reader-local fields live next
  to the shared fields in one combined state record.
* A Rust panic is modelled by returning `none` from `init`.
-/

namespace RingbufferSpsc

/-- Rust `usize::wrapping_add` at word width `w`. -/
def wadd (w a b : Nat) : Nat := (a + b) % 2 ^ w

/-- Rust `usize::wrapping_sub` at word width `w`: for `a, b < 2 ^ w` this is
`(a - b) mod 2 ^ w`. -/
def wsub (w a b : Nat) : Nat := (a + (2 ^ w - b % 2 ^ w)) % 2 ^ w

/-- Rust `usize::is_power_of_two` (true exactly when `count_ones() == 1`,
i.e. when `n = 2 ^ k` for some `k`; in particular false at `0`). -/
def is_power_of_two (n : Nat) : Bool :=
  (List.range (n + 1)).any fun k => n == 2 ^ k

/-- Combined state of `RingBuffer<T, N>` (shared fields `buffer`, `idx_r`,
`idx_w`), `RingBufferWriter` (fields `cached_idx_r`, `local_idx_w`) and
`RingBufferReader` (fields `local_idx_r`, `cached_idx_w`).  `buffer p` is the
content of physical slot `p` (only `p < N` is ever used); `none` models
`MaybeUninit::uninit()`. -/
structure RB (T : Type) where
  buffer : Nat → Option T
  idx_r : Nat
  idx_w : Nat
  cached_idx_r : Nat
  local_idx_w : Nat
  local_idx_r : Nat
  cached_idx_w : Nat

/-- `RingBuffer::get_mut`: the physical slot selected by a logical index is
`idx & (N - 1)`. -/
def slot (N idx : Nat) : Nat := idx &&& (N - 1)

/-- The freshly constructed state: both cursors zero, both handles' local
bookkeeping zero, every slot uninitialized. -/
def initState (T : Type) : RB T :=
  { buffer := fun _ => none
    idx_r := 0
    idx_w := 0
    cached_idx_r := 0
    local_idx_w := 0
    local_idx_r := 0
    cached_idx_w := 0 }

/-- `RingBuffer::init`: asserts that `N` is a power of two (the panic is
modelled as `none`), otherwise builds the fresh shared buffer and the bound
writer/reader pair. -/
def init (T : Type) (N : Nat) : Option (RB T) :=
  if is_power_of_two N then some (initState T) else none

/-- The unconditional tail of `RingBufferWriter::push`: store the element at
slot `local_idx_w & (N-1)`, advance `local_idx_w` by one wrapping, publish it
to the shared `idx_w`, and return `None` (accepted). -/
def pushStore (T : Type) (N w : Nat) (s : RB T) (t : T) : Option T × RB T :=
  let s1 := { s with buffer := Function.update s.buffer (slot N s.local_idx_w) (some t) }
  let nw := wadd w s1.local_idx_w 1
  (none, { s1 with local_idx_w := nw, idx_w := nw })

/-- `RingBufferWriter::push`: if `local_idx_w.wrapping_sub(cached_idx_r) == N`
refresh `cached_idx_r` from the shared `idx_r` and re-check; if still `== N`
return `Some(t)` (rejected, buffer full); otherwise store and advance. -/
def push (T : Type) (N w : Nat) (s : RB T) (t : T) : Option T × RB T :=
  if wsub w s.local_idx_w s.cached_idx_r = N then
    let s1 := { s with cached_idx_r := s.idx_r }
    if wsub w s1.local_idx_w s1.cached_idx_r = N then (some t, s1)
    else pushStore T N w s1 t
  else pushStore T N w s t

/-- The unconditional tail of `RingBufferReader::pull`: move the value out of
slot `local_idx_r & (N-1)` (the slot becomes uninitialized), advance
`local_idx_r` by one wrapping and publish it to the shared `idx_r`.  The first
component `some c` reports the taken slot content `c : Option T`
(`assume_init` of an uninitialized slot would be UB in the source; under the
reachability invariant `c` is always `some _`). -/
def pullTake (T : Type) (N w : Nat) (s : RB T) : Option (Option T) × RB T :=
  let t := s.buffer (slot N s.local_idx_r)
  let s1 := { s with buffer := Function.update s.buffer (slot N s.local_idx_r) none }
  let nr := wadd w s1.local_idx_r 1
  (some t, { s1 with local_idx_r := nr, idx_r := nr })

/-- `RingBufferReader::pull`: if `local_idx_r == cached_idx_w` refresh
`cached_idx_w` from the shared `idx_w` and re-check; if still equal return
`None` (empty); otherwise take the element at `local_idx_r` and advance. -/
def pull (T : Type) (N w : Nat) (s : RB T) : Option (Option T) × RB T :=
  if s.local_idx_r = s.cached_idx_w then
    let s1 := { s with cached_idx_w := s.idx_w }
    if s1.local_idx_r = s1.cached_idx_w then (none, s1)
    else pullTake T N w s1
  else pullTake T N w s

/-- `RingBufferReader::len` exactly as written in this repository: it branches
on the raw magnitudes of the two indices and, in the wrapped branch, computes
`(write_index + N) - read_index` with plain `usize` arithmetic (modelled with
release-mode wrapping semantics). -/
def len (T : Type) (N w : Nat) (s : RB T) : Nat :=
  let write_index := s.idx_w
  let read_index := s.local_idx_r
  if read_index ≤ write_index then write_index - read_index
  else wsub w (wadd w write_index N) read_index

/-- Modelled from the spec: the true occupancy of the buffer as seen by the
reader — the wrapped difference `idx_w.wrapping_sub(local_idx_r)` of the
shared write cursor and the local read cursor, modulo `2 ^ w`. -/
def occupancy (T : Type) (w : Nat) (s : RB T) : Nat := wsub w s.idx_w s.local_idx_r

/-- The loop of `impl Drop for RingBuffer`, with explicit fuel: while
`idx_r != idx_w`, move the value out of slot `idx_r & (N-1)` (leaving it
uninitialized), record the destructed (physical slot, content) pair, and
advance `idx_r` by one wrapping. -/
def dropLoop (T : Type) (N w : Nat) :
    Nat → (Nat → Option T) → Nat → Nat → List (Nat × Option T)
  | 0, _, _, _ => []
  | fuel + 1, buf, idx_r, idx_w =>
    if idx_r = idx_w then []
    else
      let p := slot N idx_r
      (p, buf p) :: dropLoop T N w fuel (Function.update buf p none) (wadd w idx_r 1) idx_w

/-- `impl Drop for RingBuffer::drop`: walk from `idx_r` to `idx_w` destructing
each slot in the range.  The source loop terminates after exactly
`idx_w.wrapping_sub(idx_r) < 2 ^ w` iterations, so fuel `2 ^ w` is enough. -/
def dropRun (T : Type) (N w : Nat) (s : RB T) : List (Nat × Option T) :=
  dropLoop T N w (2 ^ w) s.buffer s.idx_r s.idx_w

/-- One sequential operation issued by the producer or the consumer. -/
inductive Op (T : Type) where
  | opPush (t : T)
  | opPull

/-- Apply one operation to the combined state, discarding the result value. -/
def step (T : Type) (N w : Nat) (s : RB T) : Op T → RB T
  | .opPush t => (push T N w s t).2
  | .opPull => (pull T N w s).2

/-- Run a sequence of operations from a starting state. -/
def runOps (T : Type) (N w : Nat) (s : RB T) (ops : List (Op T)) : RB T :=
  ops.foldl (step T N w) s

/-- The states reachable from construction by any sequence of pushes and
pulls. -/
inductive Reachable (T : Type) (N w : Nat) : RB T → Prop where
  | base : Reachable T N w (initState T)
  | doPush (s : RB T) (t : T) : Reachable T N w s → Reachable T N w (push T N w s t).2
  | doPull (s : RB T) : Reachable T N w s → Reachable T N w (pull T N w s).2

/-! ### Basic facts about the wrapping arithmetic and the bitmask -/

theorem wsub_eq_of_lt (w a b : Nat) (ha : a < 2 ^ w) (hb : b < 2 ^ w) :
    wsub w a b = if b ≤ a then a - b else a + 2 ^ w - b := by
  unfold wsub
  rw [Nat.mod_eq_of_lt hb]
  rcases le_or_lt b a with h | h
  · rw [if_pos h]
    have h1 : a + (2 ^ w - b) = (a - b) + 2 ^ w := by omega
    rw [h1, Nat.add_mod_right, Nat.mod_eq_of_lt (by omega)]
  · rw [if_neg (by omega)]
    have h1 : a + (2 ^ w - b) = a + 2 ^ w - b := by omega
    rw [h1, Nat.mod_eq_of_lt (by omega)]

theorem wsub_lt (w a b : Nat) (hw : 0 < 2 ^ w) : wsub w a b < 2 ^ w :=
  Nat.mod_lt _ hw

theorem wadd_one_eq (w a : Nat) (ha : a < 2 ^ w) :
    wadd w a 1 = if a + 1 = 2 ^ w then 0 else a + 1 := by
  unfold wadd
  by_cases h : a + 1 = 2 ^ w
  · rw [if_pos h, h, Nat.mod_self]
  · rw [if_neg h, Nat.mod_eq_of_lt (by omega)]

theorem wsub_eq_zero_iff (w a b : Nat) (ha : a < 2 ^ w) (hb : b < 2 ^ w) :
    wsub w a b = 0 ↔ a = b := by
  rw [wsub_eq_of_lt w a b ha hb]
  rcases le_or_lt b a with h | h
  · rw [if_pos h]; omega
  · rw [if_neg (by omega)]; omega

theorem slot_eq_mod (k N idx : Nat) (hN : N = 2 ^ k) : slot N idx = idx % N := by
  subst hN
  unfold slot
  apply Nat.eq_of_testBit_eq
  intro i
  rw [Nat.testBit_and, Nat.testBit_mod_two_pow]
  rcases Nat.lt_or_ge i k with h | h
  · simp [Nat.testBit_two_pow_sub_one, h]
  · simp [Nat.testBit_two_pow_sub_one, Nat.not_lt.mpr h]

theorem is_power_of_two_iff (n : Nat) :
    is_power_of_two n = true ↔ ∃ k, n = 2 ^ k := by
  unfold is_power_of_two
  rw [List.any_eq_true]
  constructor
  · rintro ⟨k, _, hk⟩
    exact ⟨k, by simpa using hk⟩
  · rintro ⟨k, hk⟩
    refine ⟨k, List.mem_range.mpr ?_, by simpa using hk⟩
    have : k < 2 ^ k := Nat.lt_two_pow k
    omega

/-! ### Claims -/

/-- C8: for every logical index `i` and power-of-two capacity `N = 2 ^ k`
with `k ≤ w`, the physical slot accessed is `i &&& (N - 1)`, which equals
`i % N`; and reducing the index modulo the full integer width `2 ^ w` first
(i.e. letting the cursor wrap) selects the same slot, because `N` divides
`2 ^ w`. -/
theorem C8_slot_mask (i k w N : Nat) (hN : N = 2 ^ k) (hk : k ≤ w) :
    slot N i = i % N ∧ slot N (i % 2 ^ w) = slot N i := by
  have h1 := slot_eq_mod k N i hN
  have h2 := slot_eq_mod k N (i % 2 ^ w) hN
  refine ⟨h1, ?_⟩
  rw [h1, h2, hN, Nat.mod_mod_of_dvd i (pow_dvd_pow 2 hk)]

theorem C8_slot_mask_witness :
    slot 4 13 = 13 % 4 ∧ slot 4 (13 % 2 ^ 6) = slot 4 13 :=
  C8_slot_mask 13 2 6 4 rfl (by decide)

/-- C7: `init` fails (panics) exactly when `N` is not a power of two; when it
succeeds, the returned state has both shared cursors zero, both handles'
local bookkeeping zero, and every slot uninitialized. -/
theorem C7_init_power_of_two (T : Type) (N : Nat) :
    (init T N = none ↔ ¬ ∃ k, N = 2 ^ k) ∧
    (∀ s, init T N = some s →
      s.idx_r = 0 ∧ s.idx_w = 0 ∧ s.cached_idx_r = 0 ∧ s.local_idx_w = 0 ∧
      s.local_idx_r = 0 ∧ s.cached_idx_w = 0 ∧ ∀ p, s.buffer p = none) := by
  constructor
  · unfold init
    rcases h : is_power_of_two N with _ | _
    · simp only [Bool.false_eq_true, if_neg]
      constructor
      · intro _ hk
        rw [← is_power_of_two_iff] at hk
        rw [h] at hk
        exact Bool.false_ne_true hk
      · intro _; rfl
    · simp only [if_pos]
      constructor
      · intro hc; exact absurd hc (Option.some_ne_none _)
      · intro hk; exact absurd ((is_power_of_two_iff N).mp h) hk
  · intro s hs
    unfold init at hs
    rcases h : is_power_of_two N with _ | _
    · rw [h] at hs; simp at hs
    · rw [h] at hs
      simp only [if_pos] at hs
      cases hs
      exact ⟨rfl, rfl, rfl, rfl, rfl, rfl, fun _ => rfl⟩

theorem C7_init_power_of_two_witness :
    ((init Nat 3 = none ↔ ¬ ∃ k, (3 : Nat) = 2 ^ k)) ∧
    ((initState Nat).idx_r = 0 ∧ (initState Nat).idx_w = 0 ∧
      (initState Nat).cached_idx_r = 0 ∧ (initState Nat).local_idx_w = 0 ∧
      (initState Nat).local_idx_r = 0 ∧ (initState Nat).cached_idx_w = 0 ∧
      ∀ p, (initState Nat).buffer p = none) :=
  ⟨(C7_init_power_of_two Nat 3).1,
   (C7_init_power_of_two Nat 4).2 (initState Nat) rfl⟩

/-- C9 (frame property of `push`): for every writer state and input, `push`
leaves the shared read cursor, the reader-local fields and every slot other
than the one at `local_idx_w & (N-1)` unchanged; it only ever mutates the
writer-local fields, the shared write cursor and that single slot. -/
theorem C9_push_frame (T : Type) (N w : Nat) (s : RB T) (t : T) :
    (push T N w s t).2.idx_r = s.idx_r ∧
    (push T N w s t).2.local_idx_r = s.local_idx_r ∧
    (push T N w s t).2.cached_idx_w = s.cached_idx_w ∧
    ∀ p, p ≠ slot N s.local_idx_w → (push T N w s t).2.buffer p = s.buffer p := by
  unfold push pushStore
  rcases h : decide (wsub w s.local_idx_w s.cached_idx_r = N) with _ | _
  · rw [if_neg (by simpa using h)]
    exact ⟨rfl, rfl, rfl, fun p hp => Function.update_noteq hp _ _⟩
  · rw [if_pos (by simpa using h)]
    rcases h2 : decide (wsub w s.local_idx_w s.idx_r = N) with _ | _
    · rw [if_neg (by simpa using h2)]
      exact ⟨rfl, rfl, rfl, fun p hp => Function.update_noteq hp _ _⟩
    · rw [if_pos (by simpa using h2)]
      exact ⟨rfl, rfl, rfl, fun _ _ => rfl⟩

theorem C9_push_frame_witness :
    (push Nat 4 8 (initState Nat) 5).2.idx_r = (initState Nat).idx_r ∧
    (3 ≠ slot 4 (initState Nat).local_idx_w ∧
      (push Nat 4 8 (initState Nat) 5).2.buffer 3 = (initState Nat).buffer 3) :=
  ⟨(C9_push_frame Nat 4 8 (initState Nat) 5).1,
   by decide,
   (C9_push_frame Nat 4 8 (initState Nat) 5).2.2.2 3 (by decide)⟩

/-- C10: constructing with capacity `N = 0` fails the power-of-two assertion
(panics), and every successfully constructed ring buffer has capacity at
least 1, so the mask `N - 1` never underflows. -/
theorem C10_zero_capacity (T : Type) :
    init T 0 = none ∧ ∀ (N : Nat) (s : RB T), init T N = some s → 1 ≤ N := by
  constructor
  · rfl
  · intro N s hs
    unfold init at hs
    rcases h : is_power_of_two N with _ | _
    · rw [h] at hs; simp at hs
    · rcases (is_power_of_two_iff N).mp h with ⟨k, hk⟩
      subst hk
      exact Nat.one_le_two_pow

theorem C10_zero_capacity_witness :
    init Nat 0 = none ∧ 1 ≤ 4 :=
  ⟨(C10_zero_capacity Nat).1,
   (C10_zero_capacity Nat).2 4 (initState Nat) rfl⟩

/-- Every state produced by `runOps` from the fresh state is reachable. -/
theorem runOps_reachable (T : Type) (N w : Nat) (ops : List (Op T)) (s : RB T)
    (hs : Reachable T N w s) : Reachable T N w (runOps T N w s ops) := by
  induction ops generalizing s with
  | nil => exact hs
  | cons op ops ih =>
    rcases op with t | _
    · exact ih _ (Reachable.doPush s t hs)
    · exact ih _ (Reachable.doPull s hs)

/-- The read-cursor value `push` actually checks against: the cached snapshot,
refreshed from the shared `idx_r` when the cached check reports full. -/
def refreshedCachedR (T : Type) (N w : Nat) (s : RB T) : Nat :=
  if wsub w s.local_idx_w s.cached_idx_r = N then s.idx_r else s.cached_idx_r

/-- The write-cursor value `pull` actually checks against: the cached
snapshot, refreshed from the shared `idx_w` when the cached check reports
empty. -/
def refreshedCachedW (T : Type) (N w : Nat) (s : RB T) : Nat :=
  if s.local_idx_r = s.cached_idx_w then s.idx_w else s.cached_idx_w

/-- C2: `push` rejects (returns `Some` of its argument, i.e. hands the very
input back) exactly when the wrapped difference between the local write
cursor and the (possibly refreshed) read cursor equals `N` at its check; on
rejection no slot is written and the local and shared write cursors are
unchanged; on acceptance the value is stored at slot
`local_idx_w & (N-1)` and both write cursors advance by one, wrapping. -/
theorem C2_push_reject_iff (T : Type) (N w : Nat) (s : RB T) (t : T) :
    ((push T N w s t).1 = some t ∨ (push T N w s t).1 = none) ∧
    ((push T N w s t).1 = some t ↔
      wsub w s.local_idx_w (refreshedCachedR T N w s) = N) ∧
    ((push T N w s t).1 = some t →
      (push T N w s t).2.local_idx_w = s.local_idx_w ∧
      (push T N w s t).2.idx_w = s.idx_w ∧
      ∀ p, (push T N w s t).2.buffer p = s.buffer p) ∧
    ((push T N w s t).1 = none →
      (push T N w s t).2.buffer
        = Function.update s.buffer (slot N s.local_idx_w) (some t) ∧
      (push T N w s t).2.local_idx_w = wadd w s.local_idx_w 1 ∧
      (push T N w s t).2.idx_w = wadd w s.local_idx_w 1) := by
  unfold push pushStore refreshedCachedR
  by_cases h1 : wsub w s.local_idx_w s.cached_idx_r = N
  · rw [if_pos h1, if_pos h1]
    by_cases h2 : wsub w s.local_idx_w s.idx_r = N
    · rw [if_pos h2]
      exact ⟨Or.inl rfl, by simp [h2], fun _ => ⟨rfl, rfl, fun _ => rfl⟩,
        fun hc => absurd hc (by simp)⟩
    · rw [if_neg h2]
      exact ⟨Or.inr rfl, by simp [h2], fun hc => absurd hc (by simp),
        fun _ => ⟨rfl, rfl, rfl⟩⟩
  · rw [if_neg h1, if_neg h1]
    exact ⟨Or.inr rfl, by simp [h1], fun hc => absurd hc (by simp),
      fun _ => ⟨rfl, rfl, rfl⟩⟩

/-- C3: `pull` reports empty exactly when the local read cursor equals the
(possibly refreshed) write cursor at its check, and in that case the state is
completely unchanged; otherwise it returns the content of the slot at
`local_idx_r & (N-1)` (leaving that slot uninitialized) and advances the
local and shared read cursors by one, wrapping. -/
theorem C3_pull_empty_iff (T : Type) (N w : Nat) (s : RB T) :
    ((pull T N w s).1 = none ↔ s.local_idx_r = refreshedCachedW T N w s) ∧
    ((pull T N w s).1 = none → (pull T N w s).2 = s) ∧
    ((pull T N w s).1 = none ∨
      (pull T N w s).1 = some (s.buffer (slot N s.local_idx_r))) ∧
    ((pull T N w s).1 ≠ none →
      (pull T N w s).2.buffer
        = Function.update s.buffer (slot N s.local_idx_r) none ∧
      (pull T N w s).2.local_idx_r = wadd w s.local_idx_r 1 ∧
      (pull T N w s).2.idx_r = wadd w s.local_idx_r 1) := by
  obtain ⟨buf, ir, iw, cir, liw, lir, ciw⟩ := s
  unfold pull pullTake refreshedCachedW
  simp only
  by_cases h1 : lir = ciw
  · rw [if_pos h1, if_pos h1]
    by_cases h2 : lir = iw
    · rw [if_pos h2]
      refine ⟨by simp [h2], fun _ => ?_, Or.inl rfl, fun hc => absurd rfl hc⟩
      subst h2
      rw [h1]
    · rw [if_neg h2]
      exact ⟨by simp [h2], fun hc => absurd hc (by simp),
        Or.inr rfl, fun _ => ⟨rfl, rfl, rfl⟩⟩
  · rw [if_neg h1, if_neg h1]
    exact ⟨by simp [h1], fun hc => absurd hc (by simp),
      Or.inr rfl, fun _ => ⟨rfl, rfl, rfl⟩⟩

/-- Push a list of values one after the other, collecting the results. -/
def pushAll (T : Type) (N w : Nat) : RB T → List T → List (Option T) × RB T
  | s, [] => ([], s)
  | s, t :: ts =>
    let r := push T N w s t
    let rest := pushAll T N w r.2 ts
    (r.1 :: rest.1, rest.2)

/-- Pull `m` times in a row, collecting the results. -/
def pullN (T : Type) (N w : Nat) : RB T → Nat → List (Option (Option T)) × RB T
  | s, 0 => ([], s)
  | s, m + 1 =>
    let r := pull T N w s
    let rest := pullN T N w r.2 m
    (r.1 :: rest.1, rest.2)

/-- The buffer function obtained by storing the values of `vs` at the slots
of consecutive logical indices starting at `j`. -/
def writeBuf (T : Type) (N : Nat) : (Nat → Option T) → Nat → List T → (Nat → Option T)
  | buf, _, [] => buf
  | buf, j, t :: ts => writeBuf T N (Function.update buf (slot N j) (some t)) (j + 1) ts

/-- The buffer function obtained by clearing the slots of `m` consecutive
logical indices starting at `j`. -/
def clearBuf (T : Type) (N : Nat) : (Nat → Option T) → Nat → Nat → (Nat → Option T)
  | buf, _, 0 => buf
  | buf, j, m + 1 => clearBuf T N (Function.update buf (slot N j) none) (j + 1) m

theorem slot_small (k N j : Nat) (hpow : N = 2 ^ k) (hj : j < N) : slot N j = j := by
  rw [slot_eq_mod k N j hpow]
  exact Nat.mod_eq_of_lt hj

theorem wsub_zero_right (w a : Nat) : wsub w a 0 = a % 2 ^ w := by
  unfold wsub
  simp

theorem wadd_one_small (w a : Nat) (h : a + 1 < 2 ^ w) : wadd w a 1 = a + 1 := by
  rw [wadd_one_eq w a (by omega)]
  rw [if_neg (by omega)]

theorem writeBuf_out (T : Type) (k N : Nat) (hpow : N = 2 ^ k) :
    ∀ (vs : List T) (j : Nat) (buf : Nat → Option T) (p : Nat),
      j + vs.length ≤ N → (∀ i, i < vs.length → p ≠ j + i) →
      writeBuf T N buf j vs p = buf p := by
  intro vs
  induction vs with
  | nil => intro j buf p _ _; rfl
  | cons t ts ih =>
    intro j buf p hle hne
    unfold writeBuf
    rw [ih (j + 1) _ p (by simpa [Nat.add_comm, Nat.add_assoc, Nat.add_left_comm] using hle)
      (fun i hi => by have := hne (i + 1) (by simpa using hi); omega)]
    apply Function.update_noteq
    rw [slot_small k N j hpow (by simp at hle; omega)]
    have := hne 0 (by simp)
    omega

theorem writeBuf_get (T : Type) (k N : Nat) (hpow : N = 2 ^ k) :
    ∀ (vs : List T) (j : Nat) (buf : Nat → Option T) (i : Nat) (hi : i < vs.length),
      j + vs.length ≤ N → writeBuf T N buf j vs (j + i) = some (vs.get ⟨i, hi⟩) := by
  intro vs
  induction vs with
  | nil => intro j buf i hi _; exact absurd hi (by simp)
  | cons t ts ih =>
    intro j buf i hi hle
    rcases i with _ | i
    · have hout := writeBuf_out T k N hpow ts (j + 1)
        (Function.update buf (slot N j) (some t)) j
        (by simp at hle; omega) (fun i hi => by omega)
      have hupd : Function.update buf (slot N j) (some t) j = some t := by
        rw [slot_small k N j hpow (by simp at hle; omega)]
        exact Function.update_same j (some t) buf
      unfold writeBuf
      simp only [Nat.add_zero]
      rw [hout, hupd]
      rfl
    · unfold writeBuf
      have h1 : j + (i + 1) = (j + 1) + i := by omega
      rw [h1, ih (j + 1) _ i (by simpa using hi) (by simp at hle; omega)]
      rfl

theorem pushAll_from (T : Type) (k w N : Nat) (hpow : N = 2 ^ k) (hNw : N < 2 ^ w) :
    ∀ (vs : List T) (j : Nat) (buf : Nat → Option T), j + vs.length ≤ N →
      pushAll T N w ⟨buf, 0, j, 0, j, 0, 0⟩ vs =
        (List.replicate vs.length none,
          ⟨writeBuf T N buf j vs, 0, j + vs.length, 0, j + vs.length, 0, 0⟩) := by
  intro vs
  induction vs with
  | nil => intro j buf _; simp [pushAll, writeBuf]
  | cons t ts ih =>
    intro j buf hle
    have hj : j < N := by simp at hle; omega
    have hcond : wsub w j 0 ≠ N := by
      rw [wsub_zero_right, Nat.mod_eq_of_lt (by omega)]
      omega
    have hstep : push T N w ⟨buf, 0, j, 0, j, 0, 0⟩ t =
        (none, ⟨Function.update buf (slot N j) (some t), 0, j + 1, 0, j + 1, 0, 0⟩) := by
      unfold push pushStore
      rw [if_neg hcond]
      simp only
      rw [wadd_one_small w j (by omega)]
    unfold pushAll
    rw [hstep]
    simp only
    rw [ih (j + 1) _ (by simp at hle; omega)]
    simp only [List.length_cons, List.replicate_succ, writeBuf]
    rw [show j + (ts.length + 1) = j + 1 + ts.length by omega]

theorem pullN_from (T : Type) (k w N K : Nat) (hpow : N = 2 ^ k) (hKN : K ≤ N)
    (hNw : N < 2 ^ w) :
    ∀ (m j : Nat) (buf : Nat → Option T) (cr : Nat), j + m ≤ K →
      pullN T N w ⟨buf, j, K, cr, K, j, K⟩ m =
        ((List.range m).map fun i => some (buf (slot N (j + i))),
          ⟨clearBuf T N buf j m, j + m, K, cr, K, j + m, K⟩) := by
  intro m
  induction m with
  | zero => intro j buf cr _; simp [pullN, clearBuf]
  | succ m ih =>
    intro j buf cr hle
    have hj : j < K := by omega
    have hstep : pull T N w ⟨buf, j, K, cr, K, j, K⟩ =
        (some (buf (slot N j)),
          ⟨Function.update buf (slot N j) none, j + 1, K, cr, K, j + 1, K⟩) := by
      unfold pull pullTake
      rw [if_neg (by simp only; omega)]
      simp only
      rw [wadd_one_small w j (by omega)]
    unfold pullN
    rw [hstep]
    simp only
    rw [ih (j + 1) _ cr (by omega)]
    simp only [Prod.mk.injEq]
    refine ⟨?_, ?_⟩
    · rw [List.range_succ_eq_map, List.map_cons, List.map_map]
      congr 1
      apply List.map_congr_left
      intro i hi
      have hiK : i < m := List.mem_range.mp hi
      simp only [Function.comp]
      rw [Function.update_noteq]
      · rw [show j + 1 + i = j + (i + 1) by omega]
      · rw [slot_small k N (j + 1 + i) hpow (by omega),
          slot_small k N j hpow (by omega)]
        omega
    · simp only [clearBuf]
      rw [show j + (m + 1) = j + 1 + m by omega]

theorem writeBuf_init_get (T : Type) (k N : Nat) (hpow : N = 2 ^ k) (vs : List T)
    (hlen : vs.length ≤ N) (i : Nat) (hi : i < vs.length) :
    writeBuf T N (fun _ => none) 0 vs (slot N i) = some (vs.get ⟨i, hi⟩) := by
  rw [slot_small k N i hpow (by omega)]
  have h := writeBuf_get T k N hpow vs 0 (fun _ => none) i hi (by omega)
  simpa using h

/-- The concrete scenario of the spec at `N = 4`, word width 64: push
`0,1,2,3`, then push `4` (rejected), then four pulls, a fifth pull, and a
final push of `4`. -/
def scen0 : List (Option Nat) × RB Nat := pushAll Nat 4 64 (initState Nat) [0, 1, 2, 3]

def scen1 : Option Nat × RB Nat := push Nat 4 64 scen0.2 4

def scen2 : List (Option (Option Nat)) × RB Nat := pullN Nat 4 64 scen1.2 4

def scen3 : Option (Option Nat) × RB Nat := pull Nat 4 64 scen2.2

def scen4 : Option Nat × RB Nat := push Nat 4 64 scen3.2 4

set_option maxRecDepth 100000 in
/-- C4: pushing `K ≤ N` values into a fresh buffer accepts all of them,
pulling `K` times then yields exactly those values in order, and one further
pull reports empty.  In particular, at `N = 4`: pushes of `0,1,2,3` are
accepted, a push of `4` is rejected handing back `4`, four pulls yield
`0,1,2,3` in order, a fifth pull reports empty, and a subsequent push of `4`
is accepted (slot reuse). -/
theorem C4_round_trip (T : Type) (k w N : Nat) (hpow : N = 2 ^ k) (hkw : k < w)
    (vs : List T) (hlen : vs.length ≤ N) :
    ((pushAll T N w (initState T) vs).1 = List.replicate vs.length none ∧
      (pullN T N w (pushAll T N w (initState T) vs).2 vs.length).1
        = vs.map (fun t => some (some t)) ∧
      (pull T N w (pullN T N w (pushAll T N w (initState T) vs).2 vs.length).2).1
        = none) ∧
    (scen0.1 = [none, none, none, none] ∧ scen1.1 = some 4 ∧
      scen2.1 = [some (some 0), some (some 1), some (some 2), some (some 3)] ∧
      scen3.1 = none ∧ scen4.1 = none) := by
  have hNw : N < 2 ^ w := by
    rw [hpow]
    exact Nat.pow_lt_pow_right (by omega) hkw
  have hN1 : 1 ≤ N := by
    rw [hpow]
    exact Nat.one_le_two_pow
  refine ⟨?_, by decide, by decide, by decide, by decide, by decide⟩
  have hini : initState T = ⟨fun _ => none, 0, 0, 0, 0, 0, 0⟩ := rfl
  have hpushes := pushAll_from T k w N hpow hNw vs 0 (fun _ => none) (by omega)
  rw [hini, hpushes]
  simp only [Nat.zero_add]
  refine ⟨trivial, ?_⟩
  rcases vs with _ | ⟨v, vs'⟩
  · exact ⟨rfl, rfl⟩
  · simp only [List.length_cons] at hlen ⊢
    have hpull0 : pull T N w
        ⟨writeBuf T N (fun _ => none) 0 (v :: vs'), 0, vs'.length + 1, 0,
          vs'.length + 1, 0, 0⟩
        = (some (writeBuf T N (fun _ => none) 0 (v :: vs') (slot N 0)),
            ⟨Function.update (writeBuf T N (fun _ => none) 0 (v :: vs')) (slot N 0) none,
              1, vs'.length + 1, 0, vs'.length + 1, 1, vs'.length + 1⟩) := by
      have hne : ¬ ((0 : Nat) = vs'.length + 1) := by omega
      have hw1 : wadd w 0 1 = 1 := by
        rw [wadd_one_small w 0 (by omega)]
      simp [pull, pullTake, hne, hw1]
    have hrest := pullN_from T k w N (vs'.length + 1) hpow (by omega) hNw
      vs'.length 1
      (Function.update (writeBuf T N (fun _ => none) 0 (v :: vs')) (slot N 0) none)
      0 (by omega)
    simp only [pullN]
    rw [hpull0]
    simp only
    rw [hrest]
    simp only
    constructor
    · apply List.ext_getElem
      · simp
      · intro i h1 h2
        rcases i with _ | i
        · simp only [List.getElem_cons_zero, List.getElem_map]
          rw [writeBuf_init_get T k N hpow (v :: vs') (by simpa using hlen) 0 (by simp)]
          rfl
        · simp only [List.getElem_cons_succ, List.getElem_map]
          rw [List.getElem_range]
          rw [Function.update_noteq]
          · rw [show 1 + i = i + 1 by omega,
              writeBuf_init_get T k N hpow (v :: vs') (by simpa using hlen) (i + 1)
                (by simpa using h2)]
            simp
          · rw [slot_small k N (1 + i) hpow
                (by have h3 : i + 1 < vs'.length + 1 := by simpa using h2
                    omega),
              slot_small k N 0 hpow (by omega)]
            omega
    · rw [show 1 + vs'.length = vs'.length + 1 by omega]
      have hfin : ∀ (b : Nat → Option T) (cr : Nat),
          (pull T N w
            ⟨b, vs'.length + 1, vs'.length + 1, cr, vs'.length + 1,
              vs'.length + 1, vs'.length + 1⟩).1 = none := by
        intro b cr
        simp [pull]
      exact hfin _ _

theorem C4_round_trip_witness :
    (4 : Nat) = 2 ^ 2 ∧ 2 < 64 ∧ ([7, 8, 9] : List Nat).length ≤ 4 ∧
    (pushAll Nat 4 64 (initState Nat) [7, 8, 9]).1 = List.replicate 3 none :=
  ⟨rfl, by decide, by decide,
    (C4_round_trip Nat 2 64 4 rfl (by decide) [7, 8, 9] (by decide)).1.1⟩

theorem wsub_succ_left (w a b : Nat) (ha : a < 2 ^ w) (hb : b < 2 ^ w)
    (h : wsub w a b < 2 ^ w - 1) : wsub w (wadd w a 1) b = wsub w a b + 1 := by
  have h2w : 0 < 2 ^ w := Nat.pos_pow_of_pos w (by omega)
  rw [wadd_one_eq w a ha] at *
  by_cases hc : a + 1 = 2 ^ w
  · rw [if_pos hc]
    rw [wsub_eq_of_lt w a b ha hb] at h
    rw [wsub_eq_of_lt w 0 b (by omega) hb, wsub_eq_of_lt w a b ha hb]
    rcases le_or_lt b a with h1 | h1
    · rw [if_pos h1] at h ⊢
      rcases Nat.eq_zero_or_pos b with h2 | h2
      · omega
      · rw [if_neg (by omega)]
        omega
    · rw [if_neg (by omega)] at h
      omega
  · rw [if_neg hc]
    rw [wsub_eq_of_lt w a b ha hb] at h
    rw [wsub_eq_of_lt w (a + 1) b (by omega) hb, wsub_eq_of_lt w a b ha hb]
    rcases le_or_lt b a with h1 | h1
    · rw [if_pos h1, if_pos (by omega)]
      omega
    · rw [if_neg (by omega)] at h
      rcases Nat.eq_or_lt_of_le h1 with h2 | h2
      · rw [if_pos (by omega), if_neg (by omega)]
        omega
      · rw [if_neg (by omega), if_neg (by omega)]
        omega

theorem wsub_succ_right (w a b : Nat) (ha : a < 2 ^ w) (hb : b < 2 ^ w)
    (h : 0 < wsub w a b) : wsub w a (wadd w b 1) = wsub w a b - 1 := by
  have h2w : 0 < 2 ^ w := Nat.pos_pow_of_pos w (by omega)
  rw [wadd_one_eq w b hb]
  rw [wsub_eq_of_lt w a b ha hb] at h
  by_cases hc : b + 1 = 2 ^ w
  · rw [if_pos hc]
    rw [wsub_eq_of_lt w a 0 ha (by omega), wsub_eq_of_lt w a b ha hb]
    rcases le_or_lt b a with h1 | h1
    · rw [if_pos h1] at h
      rw [if_pos (show 0 ≤ a by omega), if_pos h1]
      omega
    · have hng : ¬ (b ≤ a) := by omega
      rw [if_neg hng] at h
      rw [if_pos (show 0 ≤ a by omega), if_neg hng]
      omega
  · rw [if_neg hc]
    rw [wsub_eq_of_lt w a (b + 1) ha (by omega), wsub_eq_of_lt w a b ha hb]
    rcases le_or_lt b a with h1 | h1
    · rw [if_pos h1] at h
      rcases Nat.eq_or_lt_of_le h1 with h2 | h2
      · omega
      · rw [if_pos (show b + 1 ≤ a by omega), if_pos h1]
        omega
    · have hng : ¬ (b ≤ a) := by omega
      rw [if_neg hng] at h
      rw [if_neg (show ¬ (b + 1 ≤ a) by omega), if_neg hng]
      omega

theorem add_mod_inj (N a j1 j2 : Nat) (h1 : j1 < N) (h2 : j2 < N)
    (he : (a + j1) % N = (a + j2) % N) : j1 = j2 := by
  have h3 : j1 ≡ j2 [MOD N] := Nat.ModEq.add_left_cancel' a he
  unfold Nat.ModEq at h3
  rw [Nat.mod_eq_of_lt h1, Nat.mod_eq_of_lt h2] at h3
  exact h3

theorem add_mod_width (w N a j : Nat) (hdvd : N ∣ 2 ^ w) :
    (a % 2 ^ w + j) % N = (a + j) % N := by
  conv_lhs => rw [Nat.add_mod, Nat.mod_mod_of_dvd a hdvd, ← Nat.add_mod]

theorem idx_add_wsub_mod (w N a b : Nat) (hdvd : N ∣ 2 ^ w) (ha : a < 2 ^ w)
    (hb : b < 2 ^ w) : (b + wsub w a b) % N = a % N := by
  rw [wsub_eq_of_lt w a b ha hb]
  rcases le_or_lt b a with h1 | h1
  · rw [if_pos h1, show b + (a - b) = a by omega]
  · rw [if_neg (by omega), show b + (a + 2 ^ w - b) = a + 2 ^ w by omega]
    obtain ⟨c, hc⟩ := hdvd
    rw [hc, Nat.add_mul_mod_self_left]

/-- The sequential state invariant of the ring buffer: all cursor values are
in machine range, each handle's local authoritative cursor agrees with the
shared one (sequential execution), the occupancy `idx_w - idx_r` (wrapped)
never exceeds `N`, each cached snapshot lies between the genuine cursor and
the opposite one, and the initialized slots are exactly those of the logical
indices in `[idx_r, idx_w)`, reduced modulo `N`. -/
def Inv (T : Type) (N w : Nat) (s : RB T) : Prop :=
  s.idx_r < 2 ^ w ∧ s.idx_w < 2 ^ w ∧ s.cached_idx_r < 2 ^ w ∧ s.cached_idx_w < 2 ^ w ∧
  s.local_idx_w = s.idx_w ∧ s.local_idx_r = s.idx_r ∧
  wsub w s.idx_w s.idx_r ≤ N ∧
  wsub w s.idx_w s.cached_idx_r ≤ N ∧
  wsub w s.idx_w s.idx_r ≤ wsub w s.idx_w s.cached_idx_r ∧
  wsub w s.cached_idx_w s.idx_r ≤ wsub w s.idx_w s.idx_r ∧
  ∀ p, p < N → ((s.buffer p).isSome ↔
    ∃ j, j < wsub w s.idx_w s.idx_r ∧ p = (s.idx_r + j) % N)

theorem inv_initState (T : Type) (N w : Nat) : Inv T N w (initState T) := by
  have h2w : 0 < 2 ^ w := Nat.pos_pow_of_pos w (by omega)
  have h0 : wsub w 0 0 = 0 := (wsub_eq_zero_iff w 0 0 h2w h2w).mpr rfl
  refine ⟨h2w, h2w, h2w, h2w, rfl, rfl, ?_, ?_, le_refl _, le_refl _, ?_⟩
  · show wsub w 0 0 ≤ N
    rw [h0]; omega
  · show wsub w 0 0 ≤ N
    rw [h0]; omega
  · intro p _
    show (none : Option T).isSome ↔ ∃ j, j < wsub w 0 0 ∧ p = (0 + j) % N
    rw [h0]
    simp

theorem inv_pushStore (T : Type) (k w N : Nat) (hpow : N = 2 ^ k) (hkw : k < w)
    (buf : Nat → Option T) (ir iw cr cw : Nat) (t : T)
    (hir : ir < 2 ^ w) (hiw : iw < 2 ^ w) (hcr : cr < 2 ^ w) (hcw : cw < 2 ^ w)
    (hdc : wsub w iw ir ≤ wsub w iw cr)
    (hc : wsub w iw cr < N)
    (hcwd : wsub w cw ir ≤ wsub w iw ir)
    (hbuf : ∀ p, p < N → ((buf p).isSome ↔
      ∃ j, j < wsub w iw ir ∧ p = (ir + j) % N)) :
    Inv T N w (pushStore T N w ⟨buf, ir, iw, cr, iw, ir, cw⟩ t).2 := by
  have h2w : 0 < 2 ^ w := Nat.pos_pow_of_pos w (by omega)
  have hNw : N < 2 ^ w := by
    rw [hpow]
    exact Nat.pow_lt_pow_right (by omega) hkw
  have hN1 : 0 < N := by rw [hpow]; exact Nat.pos_pow_of_pos k (by omega)
  have hdvd : N ∣ 2 ^ w := by rw [hpow]; exact pow_dvd_pow 2 (le_of_lt hkw)
  have hsl : wsub w (wadd w iw 1) ir = wsub w iw ir + 1 :=
    wsub_succ_left w iw ir hiw hir (by omega)
  have hsc : wsub w (wadd w iw 1) cr = wsub w iw cr + 1 :=
    wsub_succ_left w iw cr hiw hcr (by omega)
  have hw1 : wadd w iw 1 < 2 ^ w := Nat.mod_lt _ h2w
  have hp0 : slot N iw = (ir + wsub w iw ir) % N := by
    rw [slot_eq_mod k N iw hpow]
    exact (idx_add_wsub_mod w N iw ir hdvd hiw hir).symm
  unfold pushStore
  simp only
  refine ⟨hir, hw1, hcr, hcw, rfl, rfl, ?_, ?_, ?_, ?_, ?_⟩
  · show wsub w (wadd w iw 1) ir ≤ N
    rw [hsl]; omega
  · show wsub w (wadd w iw 1) cr ≤ N
    rw [hsc]; omega
  · show wsub w (wadd w iw 1) ir ≤ wsub w (wadd w iw 1) cr
    rw [hsl, hsc]; omega
  · show wsub w cw ir ≤ wsub w (wadd w iw 1) ir
    rw [hsl]; omega
  · intro p hp
    show (Function.update buf (slot N iw) (some t) p).isSome ↔
      ∃ j, j < wsub w (wadd w iw 1) ir ∧ p = (ir + j) % N
    rw [hsl]
    by_cases hpe : p = (ir + wsub w iw ir) % N
    · subst hpe
      rw [hp0, Function.update_same]
      simp only [Option.isSome_some, true_iff]
      exact ⟨wsub w iw ir, by omega, rfl⟩
    · rw [Function.update_noteq (by rw [hp0]; exact hpe)]
      rw [hbuf p hp]
      constructor
      · rintro ⟨j, hj, hje⟩
        exact ⟨j, by omega, hje⟩
      · rintro ⟨j, hj, hje⟩
        rcases Nat.lt_or_ge j (wsub w iw ir) with hj2 | hj2
        · exact ⟨j, hj2, hje⟩
        · have : j = wsub w iw ir := by omega
          subst this
          exact absurd hje hpe

theorem inv_pullTake (T : Type) (k w N : Nat) (hpow : N = 2 ^ k) (hkw : k < w)
    (buf : Nat → Option T) (ir iw cr cw : Nat)
    (hir : ir < 2 ^ w) (hiw : iw < 2 ^ w) (hcr : cr < 2 ^ w) (hcw : cw < 2 ^ w)
    (hdN : wsub w iw ir ≤ N)
    (hcN : wsub w iw cr ≤ N)
    (hdc : wsub w iw ir ≤ wsub w iw cr)
    (hcwd : wsub w cw ir ≤ wsub w iw ir)
    (he1 : 0 < wsub w cw ir)
    (hbuf : ∀ p, p < N → ((buf p).isSome ↔
      ∃ j, j < wsub w iw ir ∧ p = (ir + j) % N)) :
    Inv T N w (pullTake T N w ⟨buf, ir, iw, cr, iw, ir, cw⟩).2 := by
  have h2w : 0 < 2 ^ w := Nat.pos_pow_of_pos w (by omega)
  have hNw : N < 2 ^ w := by
    rw [hpow]
    exact Nat.pow_lt_pow_right (by omega) hkw
  have hN1 : 0 < N := by rw [hpow]; exact Nat.pos_pow_of_pos k (by omega)
  have hdvd : N ∣ 2 ^ w := by rw [hpow]; exact pow_dvd_pow 2 (le_of_lt hkw)
  have hd1 : 0 < wsub w iw ir := lt_of_lt_of_le he1 hcwd
  have hsr : wsub w iw (wadd w ir 1) = wsub w iw ir - 1 :=
    wsub_succ_right w iw ir hiw hir hd1
  have hse : wsub w cw (wadd w ir 1) = wsub w cw ir - 1 :=
    wsub_succ_right w cw ir hcw hir he1
  have hw1 : wadd w ir 1 < 2 ^ w := Nat.mod_lt _ h2w
  have hmod : ∀ j, (wadd w ir 1 + j) % N = (ir + 1 + j) % N := fun j =>
    add_mod_width w N (ir + 1) j hdvd
  have hp0 : slot N ir = ir % N := slot_eq_mod k N ir hpow
  unfold pullTake
  simp only
  refine ⟨hw1, hiw, hcr, hcw, rfl, rfl, ?_, hcN, ?_, ?_, ?_⟩
  · show wsub w iw (wadd w ir 1) ≤ N
    rw [hsr]; omega
  · show wsub w iw (wadd w ir 1) ≤ wsub w iw cr
    rw [hsr]; omega
  · show wsub w cw (wadd w ir 1) ≤ wsub w iw (wadd w ir 1)
    rw [hsr, hse]; omega
  · intro p hp
    show (Function.update buf (slot N ir) none p).isSome ↔
      ∃ j, j < wsub w iw (wadd w ir 1) ∧ p = (wadd w ir 1 + j) % N
    rw [hsr]
    by_cases hpe : p = ir % N
    · subst hpe
      rw [hp0, Function.update_same]
      simp only [Option.isSome_none, Bool.false_eq_true, false_iff]
      rintro ⟨j, hj, hje⟩
      rw [hmod j] at hje
      have h1j : (ir + 0) % N = (ir + (1 + j)) % N := by
        rw [Nat.add_zero, ← Nat.add_assoc] at *
        simpa using hje
      have := add_mod_inj N ir 0 (1 + j) hN1 (by omega) h1j
      omega
    · rw [Function.update_noteq (by rw [hp0]; exact hpe)]
      rw [hbuf p hp]
      constructor
      · rintro ⟨j, hj, hje⟩
        rcases Nat.eq_zero_or_pos j with hj0 | hj0
        · subst hj0
          rw [Nat.add_zero] at hje
          exact absurd hje hpe
        · refine ⟨j - 1, by omega, ?_⟩
          rw [hmod (j - 1), show ir + 1 + (j - 1) = ir + j by omega]
          exact hje
      · rintro ⟨j, hj, hje⟩
        refine ⟨j + 1, by omega, ?_⟩
        rw [hmod j] at hje
        rw [show ir + (j + 1) = ir + 1 + j by omega]
        exact hje

theorem inv_push (T : Type) (k w N : Nat) (hpow : N = 2 ^ k) (hkw : k < w)
    (s : RB T) (t : T) (h : Inv T N w s) : Inv T N w (push T N w s t).2 := by
  obtain ⟨buf, ir, iw, cr, lw, lir, cw⟩ := s
  obtain ⟨hir, hiw, hcr, hcw, hlw, hlir, hdN, hcN, hdc, hcwd, hbuf⟩ := h
  simp only at hir hiw hcr hcw hlw hlir hdN hcN hdc hcwd hbuf
  subst lw
  subst lir
  by_cases h1 : wsub w iw cr = N
  · by_cases h2 : wsub w iw ir = N
    · have hstep : (push T N w ⟨buf, ir, iw, cr, iw, ir, cw⟩ t).2
          = ⟨buf, ir, iw, ir, iw, ir, cw⟩ := by
        simp [push, h1, h2]
      rw [hstep]
      exact ⟨hir, hiw, hir, hcw, rfl, rfl, hdN, hdN, le_refl _, hcwd, hbuf⟩
    · have hstep : (push T N w ⟨buf, ir, iw, cr, iw, ir, cw⟩ t).2
          = (pushStore T N w ⟨buf, ir, iw, ir, iw, ir, cw⟩ t).2 := by
        simp [push, h1, h2]
      rw [hstep]
      exact inv_pushStore T k w N hpow hkw buf ir iw ir cw t hir hiw hir hcw
        (le_refl _) (by omega) hcwd hbuf
  · have hstep : (push T N w ⟨buf, ir, iw, cr, iw, ir, cw⟩ t).2
        = (pushStore T N w ⟨buf, ir, iw, cr, iw, ir, cw⟩ t).2 := by
      simp [push, h1]
    rw [hstep]
    exact inv_pushStore T k w N hpow hkw buf ir iw cr cw t hir hiw hcr hcw
      hdc (by omega) hcwd hbuf

theorem inv_pull (T : Type) (k w N : Nat) (hpow : N = 2 ^ k) (hkw : k < w)
    (s : RB T) (h : Inv T N w s) : Inv T N w (pull T N w s).2 := by
  have h2w : 0 < 2 ^ w := Nat.pos_pow_of_pos w (by omega)
  obtain ⟨buf, ir, iw, cr, lw, lir, cw⟩ := s
  obtain ⟨hir, hiw, hcr, hcw, hlw, hlir, hdN, hcN, hdc, hcwd, hbuf⟩ := h
  simp only at hir hiw hcr hcw hlw hlir hdN hcN hdc hcwd hbuf
  subst lw
  subst lir
  by_cases h1 : ir = cw
  · subst h1
    by_cases h2 : ir = iw
    · subst h2
      have hstep : (pull T N w ⟨buf, ir, ir, cr, ir, ir, ir⟩).2
          = ⟨buf, ir, ir, cr, ir, ir, ir⟩ := by
        simp [pull]
      rw [hstep]
      exact ⟨hir, hir, hcr, hir, rfl, rfl, hdN, hcN, hdc, le_refl _, hbuf⟩
    · have hstep : (pull T N w ⟨buf, ir, iw, cr, iw, ir, ir⟩).2
          = (pullTake T N w ⟨buf, ir, iw, cr, iw, ir, iw⟩).2 := by
        simp [pull, h2]
      rw [hstep]
      exact inv_pullTake T k w N hpow hkw buf ir iw cr iw hir hiw hcr hiw
        hdN hcN hdc (le_refl _)
        (by rw [Nat.pos_iff_ne_zero]
            intro hz
            exact h2 ((wsub_eq_zero_iff w iw ir hiw hir).mp hz).symm)
        hbuf
  · have hstep : (pull T N w ⟨buf, ir, iw, cr, iw, ir, cw⟩).2
        = (pullTake T N w ⟨buf, ir, iw, cr, iw, ir, cw⟩).2 := by
      simp [pull, h1]
    rw [hstep]
    exact inv_pullTake T k w N hpow hkw buf ir iw cr cw hir hiw hcr hcw
      hdN hcN hdc hcwd
      (by rw [Nat.pos_iff_ne_zero]
          intro hz
          exact h1 ((wsub_eq_zero_iff w cw ir hcw hir).mp hz).symm)
      hbuf

theorem inv_reachable (T : Type) (k w N : Nat) (hpow : N = 2 ^ k) (hkw : k < w)
    (s : RB T) (hs : Reachable T N w s) : Inv T N w s := by
  induction hs with
  | base => exact inv_initState T N w
  | doPush s t _ ih => exact inv_push T k w N hpow hkw s t ih
  | doPull s _ ih => exact inv_pull T k w N hpow hkw s ih

theorem C2_push_reject_iff_witness :
    (push Nat 4 64 ⟨fun _ => some 0, 0, 4, 0, 4, 0, 0⟩ 7).1 = some 7 ∧
    (push Nat 4 64 ⟨fun _ => some 0, 0, 4, 0, 4, 0, 0⟩ 7).2.local_idx_w = 4 := by
  have h := C2_push_reject_iff Nat 4 64 ⟨fun _ => some 0, 0, 4, 0, 4, 0, 0⟩ 7
  have hrej : (push Nat 4 64 ⟨fun _ => some 0, 0, 4, 0, 4, 0, 0⟩ 7).1 = some 7 :=
    (h.2.1).mpr (by decide)
  exact ⟨hrej, (h.2.2.1 hrej).1⟩

theorem C3_pull_empty_iff_witness :
    (pull Nat 4 64 (initState Nat)).1 = none ∧
    (pull Nat 4 64 (initState Nat)).2 = initState Nat := by
  have h := C3_pull_empty_iff Nat 4 64 (initState Nat)
  have hempty : (pull Nat 4 64 (initState Nat)).1 = none := (h.1).mpr (by decide)
  exact ⟨hempty, h.2.1 hempty⟩

/-- C5: in every reachable state the occupancy — the wrapped difference of
write and read cursor — never exceeds `N`, and the initialized slots are
exactly those at the logical indices in the half-open range
`[idx_r, idx_w)`, interpreted modulo `N`. -/
theorem C5_capacity_live_range (T : Type) (k w N : Nat) (hpow : N = 2 ^ k)
    (hkw : k < w) (s : RB T) (hs : Reachable T N w s) :
    wsub w s.idx_w s.idx_r ≤ N ∧
    ∀ p, p < N → ((s.buffer p).isSome ↔
      ∃ j, j < wsub w s.idx_w s.idx_r ∧ p = (s.idx_r + j) % N) := by
  obtain ⟨_, _, _, _, _, _, h7, _, _, _, h11⟩ := inv_reachable T k w N hpow hkw s hs
  exact ⟨h7, h11⟩

theorem C5_capacity_live_range_witness :
    (4 : Nat) = 2 ^ 2 ∧ 2 < 64 ∧
    (wsub 64 (push Nat 4 64 (initState Nat) 9).2.idx_w
        (push Nat 4 64 (initState Nat) 9).2.idx_r ≤ 4 ∧
      ∀ p, p < 4 → (((push Nat 4 64 (initState Nat) 9).2.buffer p).isSome ↔
        ∃ j, j < wsub 64 (push Nat 4 64 (initState Nat) 9).2.idx_w
            (push Nat 4 64 (initState Nat) 9).2.idx_r ∧
          p = ((push Nat 4 64 (initState Nat) 9).2.idx_r + j) % 4)) :=
  ⟨rfl, by decide,
    C5_capacity_live_range Nat 2 64 4 rfl (by decide) _
      (Reachable.doPush _ 9 Reachable.base)⟩

theorem dropLoop_spec (T : Type) (k w N : Nat) (hpow : N = 2 ^ k) (hkw : k < w) :
    ∀ (d r iw : Nat) (buf : Nat → Option T) (fuel : Nat),
      r < 2 ^ w → iw < 2 ^ w → wsub w iw r = d → d ≤ N → d ≤ fuel →
      dropLoop T N w fuel buf r iw =
        (List.range d).map (fun j => ((r + j) % N, buf ((r + j) % N))) := by
  have h2w : 0 < 2 ^ w := Nat.pos_pow_of_pos w (by omega)
  have hN1 : 0 < N := by rw [hpow]; exact Nat.pos_pow_of_pos k (by omega)
  have hdvd : N ∣ 2 ^ w := by rw [hpow]; exact pow_dvd_pow 2 (le_of_lt hkw)
  intro d
  induction d with
  | zero =>
    intro r iw buf fuel hr hiw hsub _ _
    have hre : iw = r := (wsub_eq_zero_iff w iw r hiw hr).mp hsub
    subst hre
    cases fuel with
    | zero => rfl
    | succ f => simp [dropLoop]
  | succ d ih =>
    intro r iw buf fuel hr hiw hsub hdN hfuel
    have hpos : 0 < wsub w iw r := by rw [hsub]; omega
    have hne : ¬ (r = iw) := by
      intro he
      subst he
      rw [(wsub_eq_zero_iff w r r hr hr).mpr rfl] at hsub
      omega
    cases fuel with
    | zero => omega
    | succ f =>
      have hr1 : wadd w r 1 < 2 ^ w := Nat.mod_lt _ h2w
      have hsub1 : wsub w iw (wadd w r 1) = d := by
        rw [wsub_succ_right w iw r hiw hr hpos, hsub]
        omega
      have hstep : dropLoop T N w (f + 1) buf r iw
          = (slot N r, buf (slot N r)) ::
            dropLoop T N w f (Function.update buf (slot N r) none) (wadd w r 1) iw := by
        simp [dropLoop, hne]
      rw [hstep,
        ih (wadd w r 1) iw (Function.update buf (slot N r) none) f hr1 hiw hsub1
          (by omega) (by omega)]
      rw [List.range_succ_eq_map, List.map_cons, List.map_map]
      congr 1
      · rw [slot_eq_mod k N r hpow]
        rw [show r + 0 = r from rfl]
      · apply List.map_congr_left
        intro j hj
        have hjd : j < d := List.mem_range.mp hj
        simp only [Function.comp]
        have hm : (wadd w r 1 + j) % N = (r + (j + 1)) % N := by
          show ((r + 1) % 2 ^ w + j) % N = (r + (j + 1)) % N
          rw [add_mod_width w N (r + 1) j hdvd,
            show r + 1 + j = r + (j + 1) by omega]
        rw [hm]
        have hne2 : (r + (j + 1)) % N ≠ slot N r := by
          rw [slot_eq_mod k N r hpow]
          intro he
          have h0 : (r + (j + 1)) % N = (r + 0) % N := by
            rw [he, Nat.add_zero]
          have := add_mod_inj N r (j + 1) 0 (by omega) (by omega) h0
          omega
        rw [Function.update_noteq hne2]

/-- C6: tearing the buffer down in a reachable state with `M` unread values
destructs exactly the `M` slots at the logical indices in
`[idx_r, idx_w)` (modulo `N`), in order, each exactly once (the visited
physical slots are pairwise distinct), each holding an initialized value;
no other slot is destructed. -/
theorem C6_drop_exactly_live (T : Type) (k w N : Nat) (hpow : N = 2 ^ k)
    (hkw : k < w) (s : RB T) (hs : Reachable T N w s) :
    dropRun T N w s = (List.range (wsub w s.idx_w s.idx_r)).map
      (fun j => ((s.idx_r + j) % N, s.buffer ((s.idx_r + j) % N))) ∧
    ((dropRun T N w s).map Prod.fst).Nodup ∧
    ∀ pr ∈ dropRun T N w s, pr.2.isSome := by
  obtain ⟨h1, h2, _, _, _, _, h7, _, _, _, h11⟩ := inv_reachable T k w N hpow hkw s hs
  have h2w : 0 < 2 ^ w := Nat.pos_pow_of_pos w (by omega)
  have hN1 : 0 < N := by rw [hpow]; exact Nat.pos_pow_of_pos k (by omega)
  have hfuel : wsub w s.idx_w s.idx_r ≤ 2 ^ w := le_of_lt (wsub_lt w _ _ h2w)
  have hmain : dropRun T N w s = (List.range (wsub w s.idx_w s.idx_r)).map
      (fun j => ((s.idx_r + j) % N, s.buffer ((s.idx_r + j) % N))) := by
    unfold dropRun
    exact dropLoop_spec T k w N hpow hkw (wsub w s.idx_w s.idx_r) s.idx_r s.idx_w
      s.buffer (2 ^ w) h1 h2 rfl h7 hfuel
  refine ⟨hmain, ?_, ?_⟩
  · rw [hmain, List.map_map]
    refine List.Nodup.map_on ?_ (List.nodup_range _)
    intro j1 h1m j2 h2m he
    have hj1 : j1 < wsub w s.idx_w s.idx_r := List.mem_range.mp h1m
    have hj2 : j2 < wsub w s.idx_w s.idx_r := List.mem_range.mp h2m
    simp only [Function.comp] at he
    exact add_mod_inj N s.idx_r j1 j2 (by omega) (by omega) he
  · intro pr hpr
    rw [hmain] at hpr
    obtain ⟨j, hjm, hpe⟩ := List.mem_map.mp hpr
    have hjd : j < wsub w s.idx_w s.idx_r := List.mem_range.mp hjm
    have hp : (s.idx_r + j) % N < N := Nat.mod_lt _ hN1
    rw [← hpe]
    exact (h11 _ hp).mpr ⟨j, hjd, rfl⟩

theorem C6_drop_exactly_live_witness :
    (4 : Nat) = 2 ^ 2 ∧ 2 < 8 ∧
    dropRun Nat 4 8 (push Nat 4 8 (initState Nat) 3).2
      = (List.range (wsub 8 (push Nat 4 8 (initState Nat) 3).2.idx_w
          (push Nat 4 8 (initState Nat) 3).2.idx_r)).map
        (fun j => (((push Nat 4 8 (initState Nat) 3).2.idx_r + j) % 4,
          (push Nat 4 8 (initState Nat) 3).2.buffer
            (((push Nat 4 8 (initState Nat) 3).2.idx_r + j) % 4))) :=
  ⟨rfl, by decide,
    (C6_drop_exactly_live Nat 2 8 4 rfl (by decide) _
      (Reachable.doPush _ 3 Reachable.base)).1⟩

/-- A concrete operation sequence at capacity `N = 4` and word width `w = 4`:
15 push/pull round trips drive both cursors to `15 = 2 ^ 4 - 1`, then two
further pushes make the write cursor wrap around to `1` while the read cursor
is still `15`. -/
def opsWrap : List (Op Nat) :=
  ((List.range 15).map fun j => [Op.opPush j, Op.opPull]).flatten
    ++ [Op.opPush 100, Op.opPush 101]

set_option maxRecDepth 100000 in
/-- C1 (falsified by the code): at the reachable state produced by `opsWrap`
(write cursor wrapped to `1`, read cursor `15`), the true occupancy is `2`
but `len` — which branches on raw cursor magnitude and adds `N`, not the
wrapped difference — returns `6 = N + 2`. -/
theorem C1_len_wrap_bug :
    Reachable Nat 4 4 (runOps Nat 4 4 (initState Nat) opsWrap) ∧
    (runOps Nat 4 4 (initState Nat) opsWrap).idx_w = 1 ∧
    (runOps Nat 4 4 (initState Nat) opsWrap).local_idx_r = 15 ∧
    occupancy Nat 4 (runOps Nat 4 4 (initState Nat) opsWrap) = 2 ∧
    len Nat 4 4 (runOps Nat 4 4 (initState Nat) opsWrap) = 6 :=
  ⟨runOps_reachable Nat 4 4 opsWrap (initState Nat) Reachable.base,
    by decide, by decide, by decide, by decide⟩

end RingbufferSpsc
